import Mathlib

/-!
# Verification of the string-width / cut-and-pad library

Shallow embedding of `src/calculate_string_length.py`.  Python strings are
modelled as `List Char`, byte buffers as `List ℕ`, Python `int` as `Int`
(offsets, target widths) or `ℕ` (byte values, positions), and code that can
raise as `Except String _` (the error payload names the Python exception).
The companion data module `calculate_string_length_const` (WIDE_EASTASIAN,
ZERO_WIDTH, ZERO_WIDTH_CF, UNICODE_VERSIONS) is not part of `src/`, so the
tables are modelled from the spec as an explicit `ConstTables` argument, and
the process environment read by `os.environ.get` is modelled as an explicit
`Option String` argument.
-/

/-! ## Python primitives used by the source -/

/-- Model of Python `str.split('.')` on the character list of a string:
splits on `'.'`, keeping empty components (`"".split('.') == ['']`). -/
def splitDot : List Char → List Char → List (List Char)
  | [], acc => [acc.reverse]
  | c :: rest, acc => if c = '.' then acc.reverse :: splitDot rest [] else splitDot rest (c :: acc)

/-- Value of a nonempty all-digit character list, `none` otherwise. -/
def digitsVal : List Char → ℕ → Option ℕ
  | [], acc => some acc
  | c :: rest, acc =>
      if 48 ≤ c.toNat ∧ c.toNat ≤ 57 then digitsVal rest (acc * 10 + (c.toNat - 48)) else none

/-- Model of Python `int(s)` on decimal version components: an optional sign
followed by at least one digit; anything else raises `ValueError` (`none`).
(Python also accepts surrounding whitespace and `_` separators; version
components never contain those, so they are not modelled.) -/
def parseIntPy : List Char → Option Int
  | [] => none
  | '-' :: rest => (digitsVal rest 0).map (fun n => -(n : Int))
  | '+' :: rest => (digitsVal rest 0).map (fun n => (n : Int))
  | l => (digitsVal l 0).map (fun n => (n : Int))

/-- Three-way comparison on `Int`. -/
def intCmp (a b : Int) : Ordering :=
  if a < b then .lt else if b < a then .gt else .eq

/-- Python tuple comparison (lexicographic; a strict prefix is smaller). -/
def lexCmp : List Int → List Int → Ordering
  | [], [] => .eq
  | [], _ :: _ => .lt
  | _ :: _, [] => .gt
  | a :: l1, b :: l2 => match intCmp a b with
    | .eq => lexCmp l1 l2
    | o => o

/-- Python slice-index normalisation for a sequence of length `len`:
negative indices count from the end, out-of-range indices clamp. -/
def pySliceIdx (len : ℕ) (i : Int) : ℕ :=
  if i < 0 then ((len : Int) + i).toNat else min len i.toNat

/-- Python slice `l[a:b]`. -/
def pySlice {α : Type} (l : List α) (a b : Int) : List α :=
  (l.drop (pySliceIdx l.length a)).take (pySliceIdx l.length b - pySliceIdx l.length a)

/-! ## Modelled static data (`calculate_string_length_const`) -/

/-- Modelled from the spec: the data module `calculate_string_length_const`
(absent from `src/`) supplies the Range Table Store of §2/§3 — the
unconditional zero-width set `ZERO_WIDTH_CF`, the per-version `ZERO_WIDTH`
and `WIDE_EASTASIAN` inclusive range tables (dictionaries keyed by version,
modelled as total functions whose values at keys outside `UNICODE_VERSIONS`
are never consulted), and the ascending list `UNICODE_VERSIONS` of supported
version identifiers. -/
structure ConstTables where
  ZERO_WIDTH_CF : List ℕ
  ZERO_WIDTH : String → List (ℕ × ℕ)
  WIDE_EASTASIAN : String → List (ℕ × ℕ)
  UNICODE_VERSIONS : List String

/-- Modelled from the spec (§3): VersionList is a nonempty sequence of
dotted-integer version identifiers. -/
def ConstTables.wf (T : ConstTables) : Prop :=
  T.UNICODE_VERSIONS ≠ [] ∧
    ∀ v ∈ T.UNICODE_VERSIONS, ((splitDot v.data []).mapM parseIntPy).isSome

/-! ## `_wcversion_value` and `_wcmatch_version` (version resolver) -/

/-- `_wcversion_value(ver_string)`: `tuple(map(int, ver_string.split('.')))`;
`none` models the `ValueError` escaping from `int`. -/
def _wcversion_value (ver_string : String) : Option (List Int) :=
  (splitDot ver_string.data []).mapM parseIntPy

/-- The `for idx, unicode_version in enumerate(unicode_versions)` loop of
`_wcmatch_version`, recursing on the tail so that `versions[idx]` is the
head and `versions[idx + 1]` the second element.  An empty list models the
trailing `assert False` (loop body never entered); a one-element remainder
models the `IndexError` handler returning the latest version; a component
that fails to parse models the uncaught `ValueError`. -/
def wcScan (cmp_given : List Int) (latest_version : String) : List String → Except String String
  | [] => .error "AssertionError"
  | [_] => .ok latest_version
  | v :: v2 :: rest =>
    match _wcversion_value v2 with
    | none => .error "ValueError"
    | some cmp_next =>
      if cmp_given = cmp_next.take cmp_given.length then .ok v2
      else if lexCmp cmp_next cmp_given = .gt then .ok v
      else wcScan cmp_given latest_version (v2 :: rest)

/-- The reassignment of `given_version` on the `'auto'` branch:
`os.environ.get('UNICODE_VERSION', 'latest')`, with the environment as an
explicit argument. -/
def wcGiven (env : Option String) (given_version : String) : String :=
  if given_version = "auto" then env.getD "latest" else given_version

/-- `_wcmatch_version(given_version)`.  The Python-2 `_return_str` branches
are dead under Python 3 (`sys.version_info[0] >= 3`) and are omitted; the
`os.environ.get('UNICODE_VERSION', 'latest')` read is the `env` argument. -/
def _wcmatch_version (versions : List String) (env : Option String) (given_version : String) :
    Except String String :=
  match versions.getLast? with
  | none => .error "IndexError"
  | some latest_version =>
    if wcGiven env given_version = "latest" then .ok latest_version
    else if wcGiven env given_version ∈ versions then .ok (wcGiven env given_version)
    else
      match _wcversion_value (wcGiven env given_version) with
      | none => .ok latest_version
      | some cmp_given =>
        match versions.head? with
        | none => .error "IndexError"
        | some earliest_version =>
          match _wcversion_value earliest_version with
          | none => .error "ValueError"
          | some cmp_earliest =>
            if lexCmp cmp_given cmp_earliest ≠ .gt then .ok earliest_version
            else wcScan cmp_given latest_version versions

example : _wcversion_value "5.0" = some [5, 0] := by decide
example : _wcversion_value "" = none := by decide
example : _wcversion_value "auto" = none := by decide
example : _wcmatch_version ["5.0", "6.0"] none "5.5" = .ok "5.0" := rfl
example : _wcmatch_version ["5.0", "6.0"] none "9" = .ok "6.0" := rfl
example : _wcmatch_version ["5.0", "6.0"] none "6" = .ok "6.0" := rfl
example : _wcmatch_version ["5.0", "6.0"] none "auto" = .ok "6.0" := rfl
example : _wcmatch_version ["5.0", "6.0"] (some "5.0") "auto" = .ok "5.0" := rfl
example : _wcmatch_version ["5.0", "6.0"] none "4.0" = .ok "5.0" := rfl

/-! ## `_bisearch` (range search) -/

/-- The `while ubound >= lbound` loop of `_bisearch`.  The fuel argument is a
modelling device only: the interval shrinks every iteration, so any fuel
larger than the table size gives the loop's value (the source loop needs no
fuel; on exhaustion we return 0, which concrete uses never reach). -/
def bisearchLoop (ucs : ℕ) (table : List (ℕ × ℕ)) : ℕ → Int → Int → ℕ
  | 0, _, _ => 0
  | fuel + 1, lbound, ubound =>
    if ubound ≥ lbound then
      if ucs > (table.getD ((lbound + ubound) / 2).toNat (0, 0)).2 then
        bisearchLoop ucs table fuel ((lbound + ubound) / 2 + 1) ubound
      else if ucs < (table.getD ((lbound + ubound) / 2).toNat (0, 0)).1 then
        bisearchLoop ucs table fuel lbound ((lbound + ubound) / 2 - 1)
      else 1
    else 0

/-- `_bisearch(ucs, table)`: binary search over an interval table, returning
1 on membership and 0 otherwise.  (On an empty table the source raises
`IndexError` from `table[0]`; per the spec tables are never empty, and the
model returns 0 there.) -/
def _bisearch (ucs : ℕ) (table : List (ℕ × ℕ)) : ℕ :=
  if ucs < (table.getD 0 (0, 0)).1 ∨ ucs > (table.getD (table.length - 1) (0, 0)).2 then 0
  else bisearchLoop ucs table (table.length + 1) 0 ((table.length : Int) - 1)

/-! ## `_wcwidth` and `Calc_Char_Width` (codepoint width classifier) -/

/-- `_wcwidth(wc, unicode_version)`.  Errors propagate from
`_wcmatch_version` (they cannot occur for well-formed tables). -/
def _wcwidth (T : ConstTables) (env : Option String) (wc : Char) (unicode_version : String) :
    Except String Int :=
  if wc.toNat ∈ T.ZERO_WIDTH_CF then .ok 0
  else if wc.toNat < 32 ∨ (0x7F ≤ wc.toNat ∧ wc.toNat < 0xA0) then .ok (-1)
  else
    match _wcmatch_version T.UNICODE_VERSIONS env unicode_version with
    | .error e => .error e
    | .ok v =>
      if _bisearch wc.toNat (T.ZERO_WIDTH v) = 1 then .ok 0
      else .ok (1 + (_bisearch wc.toNat (T.WIDE_EASTASIAN v) : Int))

/-- The thirteen-character override list of `Calc_Char_Width`. -/
def overrideChars : List Char :=
  ['‘', '’', '“', '”', '…', '·', '—', '《', '》', '↑', '↓', '←', '→']

/-- `Calc_Char_Width(char)`: override list first, then `_wcwidth` (called
with its default `unicode_version='auto'`), with negative widths clamped
to 0. -/
def Calc_Char_Width (T : ConstTables) (env : Option String) (char : Char) : Except String Int :=
  if char ∈ overrideChars then .ok 2
  else
    match _wcwidth T env char "auto" with
    | .error e => .error e
    | .ok width => if width < 0 then .ok 0 else .ok width

/-! ## `_decode_one` (UTF-8 decoder) -/

/-- Branch structure of `_decode_one` after the four byte reads: `b1`-`b4`
are the bytes at `pos`..`pos+3` (0 when absent) and `lt` the remaining
length `len(text) - pos`. -/
def decodeCore (b1 b2 b3 b4 lt pos : ℕ) : ℕ × ℕ :=
  if b1 &&& 0x80 = 0 then (b1, pos + 1)
  else if lt < 2 then (63, pos + 1)
  else if b1 &&& 0xE0 = 0xC0 then
    (if b2 &&& 0xC0 ≠ 0x80 then (63, pos + 1)
     else if ((b1 &&& 0x1F) <<< 6 ||| (b2 &&& 0x3F)) < 0x80 then (63, pos + 1)
     else ((b1 &&& 0x1F) <<< 6 ||| (b2 &&& 0x3F), pos + 2))
  else if lt < 3 then (63, pos + 1)
  else if b1 &&& 0xF0 = 0xE0 then
    (if b2 &&& 0xC0 ≠ 0x80 then (63, pos + 1)
     else if b3 &&& 0xC0 ≠ 0x80 then (63, pos + 1)
     else if ((b1 &&& 0x0F) <<< 12 ||| (b2 &&& 0x3F) <<< 6 ||| (b3 &&& 0x3F)) < 0x800 then
       (63, pos + 1)
     else ((b1 &&& 0x0F) <<< 12 ||| (b2 &&& 0x3F) <<< 6 ||| (b3 &&& 0x3F), pos + 3))
  else if lt < 4 then (63, pos + 1)
  else if b1 &&& 0xF8 = 0xF0 then
    (if b2 &&& 0xC0 ≠ 0x80 then (63, pos + 1)
     else if b3 &&& 0xC0 ≠ 0x80 then (63, pos + 1)
     else if b4 &&& 0xC0 ≠ 0x80 then (63, pos + 1)
     else if ((b1 &&& 0x07) <<< 18 ||| (b2 &&& 0x3F) <<< 12 ||| (b3 &&& 0x3F) <<< 6 |||
         (b4 &&& 0x3F)) < 0x10000 then (63, pos + 1)
     else ((b1 &&& 0x07) <<< 18 ||| (b2 &&& 0x3F) <<< 12 ||| (b3 &&& 0x3F) <<< 6 |||
         (b4 &&& 0x3F), pos + 4))
  else (63, pos + 1)

/-- `_decode_one(text, pos)` on a byte buffer: reads `b1 = text[pos]`
(raising `ValueError` when `pos` is out of range, per the `try`/`except`
re-raise) and `b2`-`b4` guarded by the remaining length (0 when absent,
matching `text.getD`), then dispatches on the lead byte. -/
def _decode_one (text : List ℕ) (pos : ℕ) : Except String (ℕ × ℕ) :=
  if pos < text.length then
    .ok (decodeCore (text.getD pos 0) (text.getD (pos + 1) 0) (text.getD (pos + 2) 0)
      (text.getD (pos + 3) 0) (text.length - pos) pos)
  else .error "ValueError"

example : _decode_one [0xC0, 0x80] 0 = .ok (63, 1) := rfl
example : _decode_one [0xF7, 0xBF, 0xBF, 0xBF] 0 = .ok (0x1FFFFF, 4) := rfl
example : _decode_one [0xE6, 0xB0, 0xB8] 0 = .ok (0x6C38, 3) := rfl
example : _decode_one [0x41] 0 = .ok (0x41, 1) := rfl
example : _decode_one [0xC3] 0 = .ok (63, 1) := rfl

/-! ## `Calc_String_Width` (string width aggregator) -/

/-- `sum(Calc_Char_Width(char) for char in cs)`: the generator sum, with the
first raised exception propagating. -/
def sumWidths (T : ConstTables) (env : Option String) : List Char → Except String Int
  | [] => .ok 0
  | c :: rest =>
    match Calc_Char_Width T env c with
    | .error e => .error e
    | .ok w =>
      match sumWidths T env rest with
      | .error e => .error e
      | .ok s2 => .ok (w + s2)

/-- Strict UTF-8 decoding of a whole byte list, as performed by Python's
`bytes.decode("utf-8")`: rejects truncated sequences, bad continuation
bytes, overlong forms, surrogates and values above `0x10FFFF`; `none`
models `UnicodeDecodeError`. -/
def utf8DecodeStrict : List ℕ → Option (List ℕ)
  | [] => some []
  | b :: rest =>
    if b < 0x80 then (utf8DecodeStrict rest).map (b :: ·)
    else if 0xC2 ≤ b ∧ b ≤ 0xDF then
      match rest with
      | b2 :: rest2 =>
        if 0x80 ≤ b2 ∧ b2 ≤ 0xBF then
          (utf8DecodeStrict rest2).map (((b - 0xC0) * 0x40 + (b2 - 0x80)) :: ·)
        else none
      | [] => none
    else if 0xE0 ≤ b ∧ b ≤ 0xEF then
      match rest with
      | b2 :: b3 :: rest3 =>
        let lo2 := if b = 0xE0 then 0xA0 else 0x80
        let hi2 := if b = 0xED then 0x9F else 0xBF
        if (lo2 ≤ b2 ∧ b2 ≤ hi2) ∧ (0x80 ≤ b3 ∧ b3 ≤ 0xBF) then
          (utf8DecodeStrict rest3).map
            (((b - 0xE0) * 0x1000 + (b2 - 0x80) * 0x40 + (b3 - 0x80)) :: ·)
        else none
      | _ => none
    else if 0xF0 ≤ b ∧ b ≤ 0xF4 then
      match rest with
      | b2 :: b3 :: b4 :: rest4 =>
        let lo2 := if b = 0xF0 then 0x90 else 0x80
        let hi2 := if b = 0xF4 then 0x8F else 0xBF
        if (lo2 ≤ b2 ∧ b2 ≤ hi2) ∧ (0x80 ≤ b3 ∧ b3 ≤ 0xBF) ∧ (0x80 ≤ b4 ∧ b4 ≤ 0xBF) then
          (utf8DecodeStrict rest4).map
            (((b - 0xF0) * 0x40000 + (b2 - 0x80) * 0x1000 + (b3 - 0x80) * 0x40 + (b4 - 0x80)) :: ·)
        else none
      | _ => none
    else none

/-- The byte-wise fallback loop of `Calc_String_Width` (`while i < end_offs`):
decode one codepoint, classify `chr(o)`, accumulate.  Fuel is a modelling
device: `_decode_one` always advances, so `end_offs` steps suffice.  (For
ordinals above `0x10FFFF` Python's `chr` raises; `Char.ofNat` maps them to
`'\0'` — the loop is unreachable because `_byte_encoding` is `"narrow"`.) -/
def decodeSumLoop (T : ConstTables) (env : Option String) (text : List ℕ) (end_offs : ℕ) :
    ℕ → ℕ → Int → Except String Int
  | 0, _, sc => .ok sc
  | fuel + 1, i, sc =>
    if i < end_offs then
      match _decode_one text i with
      | .error e => .error e
      | .ok (o, i2) =>
        match Calc_Char_Width T env (Char.ofNat o) with
        | .error e => .error e
        | .ok w => decodeSumLoop T env text end_offs fuel i2 (sc + w)
    else .ok sc

/-- The `_byte_encoding == "utf8"` arm of `Calc_String_Width`: bulk decode of
the slice, falling back (after a `UnicodeWarning`) to the `_decode_one`
loop starting at `start_offs`. -/
def Calc_String_Width_utf8 (T : ConstTables) (env : Option String) (text : List ℕ)
    (start_offs end_offs : Int) : Except String Int :=
  match utf8DecodeStrict (pySlice text start_offs end_offs) with
  | some cps => sumWidths T env (cps.map Char.ofNat)
  | none => decodeSumLoop T env text end_offs.toNat (end_offs.toNat + 1) start_offs.toNat 0

/-- Argument type of `Calc_String_Width`: `text: str | bytes`. -/
inductive PyText : Type
  | str (chars : List Char)
  | bytes (bs : List ℕ)

/-- The local `_byte_encoding: Literal["utf8", "narrow", "wide"]` of
`Calc_String_Width`, assigned the literal `"narrow"` in the source. -/
def byteEncoding : String := "narrow"

/-- `len(text)` for either argument shape. -/
def PyText.len : PyText → ℕ
  | .str s => s.length
  | .bytes b => b.length

/-- Python truthiness `not text` for either argument shape. -/
def PyText.isEmpty : PyText → Bool
  | .str s => s.isEmpty
  | .bytes b => b.isEmpty

/-- `Calc_String_Width(text, start_offs=0, end_offs=None)`: empty input
short-circuits to 0 (before the range check); `end_offs=None` defaults to
`len(text)`; `start_offs > end_offs` raises `ValueError`; native strings sum
`Calc_Char_Width` over the slice; byte buffers dispatch on
`_byte_encoding`, whose `"narrow"` value yields `end_offs - start_offs`. -/
def Calc_String_Width (T : ConstTables) (env : Option String) (text : PyText)
    (start_offs : Int := 0) (end_offs : Option Int := none) : Except String Int :=
  if text.isEmpty then .ok 0
  else if start_offs > end_offs.getD (text.len : Int) then .error "ValueError"
  else
    match text with
    | .str s => sumWidths T env (pySlice s start_offs (end_offs.getD (s.length : Int)))
    | .bytes b =>
      if byteEncoding = "utf8" then
        Calc_String_Width_utf8 T env b start_offs (end_offs.getD (b.length : Int))
      else .ok (end_offs.getD (b.length : Int) - start_offs)

/-! ## `Cut_And_Pad_String` (cut/pad utility) -/

/-- `Calc_String_Width(string)` as called by `Cut_And_Pad_String`
(default offsets). -/
def strW (T : ConstTables) (env : Option String) (s : List Char) : Except String Int :=
  Calc_String_Width T env (.str s) 0 none

/-- One iteration of the cut loop body: `string[1:]` for `'left'`,
`string[:-1]` for `'right'`, unchanged otherwise. -/
def cutStep (cut_align : String) (s : List Char) : List Char :=
  if cut_align = "left" then s.drop 1
  else if cut_align = "right" then s.dropLast
  else s

/-- One iteration of the pad loop body: `pad_char + string` for `'left'`,
`string + pad_char` for `'right'`, unchanged otherwise. -/
def padStep (pad_align : String) (pad_char : List Char) (s : List Char) : List Char :=
  if pad_align = "left" then pad_char ++ s
  else if pad_align = "right" then s ++ pad_char
  else s

/-- The `while Calc_String_Width(string) > length` loop.  Fuel is a
modelling device for the unbounded source loop: `none` means the loop has
not finished within `fuel` iterations (for a diverging loop, under every
fuel). -/
def cutLoop (T : ConstTables) (env : Option String) (cut_align : String) (length : Int) :
    ℕ → List Char → Option (Except String (List Char))
  | 0, _ => none
  | fuel + 1, s =>
    match strW T env s with
    | .error e => some (.error e)
    | .ok w =>
      if w > length then cutLoop T env cut_align length fuel (cutStep cut_align s)
      else some (.ok s)

/-- The `while Calc_String_Width(string) < length` loop, same conventions as
`cutLoop`. -/
def padLoop (T : ConstTables) (env : Option String) (pad_align : String) (pad_char : List Char)
    (length : Int) : ℕ → List Char → Option (Except String (List Char))
  | 0, _ => none
  | fuel + 1, s =>
    match strW T env s with
    | .error e => some (.error e)
    | .ok w =>
      if w < length then padLoop T env pad_align pad_char length fuel (padStep pad_align pad_char s)
      else some (.ok s)

/-- `Cut_And_Pad_String(string, length, cut_align, pad_align, pad_char)`.
`some (.ok r)` models returning `r`, `some (.error e)` a raised exception,
and `none` that the selected loop has not finished within `fuel`
iterations. -/
def Cut_And_Pad_String (T : ConstTables) (env : Option String) (fuel : ℕ) (string : List Char)
    (length : Int) (cut_align pad_align : String) (pad_char : List Char) :
    Option (Except String (List Char)) :=
  match strW T env string with
  | .error e => some (.error e)
  | .ok w =>
    if w > length then cutLoop T env cut_align length fuel string
    else if w < length then padLoop T env pad_align pad_char length fuel string
    else some (.ok string)

/-- Termination of `Cut_And_Pad_String` at a given argument vector: some
finite fuel makes the selected loop finish (returning or raising). -/
def fitTerminates (T : ConstTables) (env : Option String) (string : List Char) (length : Int)
    (cut_align pad_align : String) (pad_char : List Char) : Prop :=
  ∃ fuel r, Cut_And_Pad_String T env fuel string length cut_align pad_align pad_char = some r

/-! ## A concrete table instance (for witnesses and counterexamples) -/

/-- Modelled from the spec: a small `ConstTables` instance consistent with
the spec's concrete cases (§8) — `'A'` narrow, `'永'` (U+6C38) East-Asian
wide, combining marks U+0300–U+036F zero-width, NUL in the unconditional
zero-width set, two tabulated versions. -/
def sampleTables : ConstTables where
  ZERO_WIDTH_CF := [0]
  ZERO_WIDTH := fun _ => [(0x300, 0x36F)]
  WIDE_EASTASIAN := fun _ => [(0x4E00, 0x9FFF)]
  UNICODE_VERSIONS := ["5.0.0", "6.0.0"]

example : Calc_Char_Width sampleTables none 'A' = .ok 1 := rfl
example : Calc_Char_Width sampleTables none '永' = .ok 2 := rfl
example : Calc_Char_Width sampleTables none '…' = .ok 2 := rfl
example : Calc_Char_Width sampleTables none ' ' = .ok 1 := rfl
example : Calc_Char_Width sampleTables none (Char.ofNat 0x301) = .ok 0 := rfl
example : strW sampleTables none ['永', 'A'] = .ok 3 := rfl
example : Calc_String_Width sampleTables none (.str []) 2 (some 1) = .ok 0 := rfl
example : Calc_String_Width sampleTables none (.str ['A']) 2 (some 1) = .error "ValueError" := rfl
example : Calc_String_Width sampleTables none (.bytes [0xE6, 0xB0, 0xB8]) 0 none = .ok 3 := rfl
example : utf8DecodeStrict [0xE6, 0xB0, 0xB8] = some [0x6C38] := rfl
example :
    Cut_And_Pad_String sampleTables none 10 ['A', 'B'] 5 "left" "right" [' '] =
      some (.ok ['A', 'B', ' ', ' ', ' ']) := rfl
example :
    Cut_And_Pad_String sampleTables none 10 ['…', '…'] 3 "left" "right" [' '] =
      some (.ok ['…']) := rfl
example : strW sampleTables none ['…'] = .ok 2 := rfl


/-! ## Order and list helper lemmas -/

theorem intCmp_self (a : Int) : intCmp a a = .eq := by
  simp [intCmp]

theorem intCmp_eq_iff {a b : Int} : intCmp a b = .eq ↔ a = b := by
  unfold intCmp
  split_ifs with h1 h2 <;> simp_all <;> omega

theorem lexCmp_eq_iff : ∀ {a b : List Int}, lexCmp a b = .eq ↔ a = b
  | [], [] => by simp [lexCmp]
  | [], _ :: _ => by simp [lexCmp]
  | _ :: _, [] => by simp [lexCmp]
  | a :: l1, b :: l2 => by
    unfold lexCmp
    rcases h : intCmp a b with h' | h' | h'
    · have : a ≠ b := by
        intro he
        rw [he, intCmp_self] at h
        exact Ordering.noConfusion h
      simp [this]
    · have hab : a = b := intCmp_eq_iff.mp h
      have := @lexCmp_eq_iff l1 l2
      simp [hab, this]
    · have : a ≠ b := by
        intro he
        rw [he, intCmp_self] at h
        exact Ordering.noConfusion h
      simp [this]

theorem lexCmp_take_not_lt :
    ∀ {g t : List Int}, g = t.take g.length → lexCmp t g ≠ .lt
  | [], t => by
    cases t <;> simp [lexCmp]
  | a :: g', t => by
    cases t with
    | nil => simp
    | cons b t' =>
      intro h
      simp only [List.length_cons, List.take_succ_cons, List.cons.injEq] at h
      obtain ⟨hab, htail⟩ := h
      subst hab
      unfold lexCmp
      rw [intCmp_self]
      exact lexCmp_take_not_lt htail

theorem getLast?_mem {α : Type} {l : List α} {a : α} (h : l.getLast? = some a) : a ∈ l := by
  obtain ⟨hne, rfl⟩ := List.mem_getLast?_eq_getLast h
  exact List.getLast_mem hne

/-! ## Totality of the version resolver -/

theorem wcScan_mem (g : List Int) (latest : String) :
    ∀ (v : String) (l : List String),
      (∀ x ∈ v :: l, (_wcversion_value x).isSome) →
      ∃ r, wcScan g latest (v :: l) = .ok r ∧ (r ∈ v :: l ∨ r = latest)
  | _, [] => fun _ => ⟨latest, rfl, Or.inr rfl⟩
  | v, v2 :: rest => by
    intro hp
    have hv2 : (_wcversion_value v2).isSome := hp v2 (by simp)
    obtain ⟨t, ht⟩ := Option.isSome_iff_exists.mp hv2
    simp only [wcScan, ht]
    by_cases h1 : g = t.take g.length
    · rw [if_pos h1]
      exact ⟨v2, rfl, Or.inl (by simp)⟩
    · rw [if_neg h1]
      by_cases h2 : lexCmp t g = .gt
      · rw [if_pos h2]
        exact ⟨v, rfl, Or.inl (by simp)⟩
      · rw [if_neg h2]
        obtain ⟨r, hr, hmem⟩ := wcScan_mem g latest v2 rest (fun x hx => hp x (List.mem_cons_of_mem v hx))
        refine ⟨r, hr, ?_⟩
        rcases hmem with hm | hm
        · exact Or.inl (List.mem_cons_of_mem v hm)
        · exact Or.inr hm

/-- Totality of `_wcmatch_version` over well-formed version lists: the
result is always `.ok` of a member of the list. -/
theorem wcmatch_total (versions : List String) (env : Option String) (given : String)
    (hne : versions ≠ []) (hp : ∀ v ∈ versions, (_wcversion_value v).isSome) :
    ∃ r ∈ versions, _wcmatch_version versions env given = .ok r := by
  cases versions with
  | nil => exact absurd rfl hne
  | cons v0 rest =>
    have hsome : (v0 :: rest).getLast?.isSome := List.getLast?_isSome.mpr hne
    obtain ⟨latest, hlast⟩ := Option.isSome_iff_exists.mp hsome
    have hlmem : latest ∈ v0 :: rest := getLast?_mem hlast
    simp only [_wcmatch_version, hlast]
    by_cases hA : wcGiven env given = "latest"
    · rw [if_pos hA]
      exact ⟨latest, hlmem, rfl⟩
    · rw [if_neg hA]
      by_cases hB : wcGiven env given ∈ v0 :: rest
      · rw [if_pos hB]
        exact ⟨wcGiven env given, hB, rfl⟩
      · rw [if_neg hB]
        cases hval : _wcversion_value (wcGiven env given) with
        | none => exact ⟨latest, hlmem, rfl⟩
        | some cmp_given =>
          simp only [List.head?_cons]
          have hv0 : (_wcversion_value v0).isSome := hp v0 (by simp)
          obtain ⟨e0, he0⟩ := Option.isSome_iff_exists.mp hv0
          simp only [he0]
          by_cases hle : lexCmp cmp_given e0 ≠ .gt
          · rw [if_pos hle]
            exact ⟨v0, by simp, rfl⟩
          · rw [if_neg hle]
            obtain ⟨r, hr, hmem⟩ := wcScan_mem cmp_given latest v0 rest hp
            refine ⟨r, ?_, hr⟩
            rcases hmem with hm | hm
            · exact hm
            · exact hm ▸ hlmem

/-! ## Width classifier helper lemmas -/

theorem bisearchLoop_le_one (ucs : ℕ) (table : List (ℕ × ℕ)) :
    ∀ (fuel : ℕ) (lbound ubound : Int), bisearchLoop ucs table fuel lbound ubound ≤ 1
  | 0, _, _ => Nat.zero_le 1
  | fuel + 1, lbound, ubound => by
    unfold bisearchLoop
    split_ifs <;> first
      | exact bisearchLoop_le_one ucs table fuel _ _
      | exact Nat.le_refl 1
      | exact Nat.zero_le 1

theorem bisearch_le_one (ucs : ℕ) (table : List (ℕ × ℕ)) : _bisearch ucs table ≤ 1 := by
  unfold _bisearch
  split_ifs
  · exact Nat.zero_le 1
  · exact bisearchLoop_le_one ucs table _ _ _

/-- Every value `Calc_Char_Width` returns over well-formed tables is a
width in `[0, 2]`. -/
theorem Calc_Char_Width_cases (T : ConstTables) (env : Option String) (c : Char)
    (hT : T.wf) : ∃ w, Calc_Char_Width T env c = .ok w ∧ 0 ≤ w ∧ w ≤ 2 := by
  obtain ⟨hne, hp⟩ := hT
  unfold Calc_Char_Width
  by_cases h1 : c ∈ overrideChars
  · exact ⟨2, by rw [if_pos h1], by norm_num, by norm_num⟩
  · rw [if_neg h1]
    unfold _wcwidth
    by_cases h2 : c.toNat ∈ T.ZERO_WIDTH_CF
    · refine ⟨0, ?_, le_refl 0, by norm_num⟩
      rw [if_pos h2]
      simp
    · rw [if_neg h2]
      by_cases h3 : c.toNat < 32 ∨ (0x7F ≤ c.toNat ∧ c.toNat < 0xA0)
      · refine ⟨0, ?_, le_refl 0, by norm_num⟩
        rw [if_pos h3]
        simp
      · rw [if_neg h3]
        obtain ⟨r, _, hr⟩ := wcmatch_total T.UNICODE_VERSIONS env "auto" hne hp
        rw [hr]
        by_cases h4 : _bisearch c.toNat (T.ZERO_WIDTH r) = 1
        · refine ⟨0, ?_, le_refl 0, by norm_num⟩
          simp [h4]
        · have hb := bisearch_le_one c.toNat (T.WIDE_EASTASIAN r)
          refine ⟨1 + (_bisearch c.toNat (T.WIDE_EASTASIAN r) : Int), ?_, by
            have : (0 : Int) ≤ (_bisearch c.toNat (T.WIDE_EASTASIAN r) : Int) := Int.ofNat_nonneg _
            omega, by
            have : ((_bisearch c.toNat (T.WIDE_EASTASIAN r) : ℕ) : Int) ≤ 1 := by
              exact_mod_cast hb
            omega⟩
          have hpos : ¬((1 + (_bisearch c.toNat (T.WIDE_EASTASIAN r) : Int)) < 0) := by
            have : (0 : Int) ≤ (_bisearch c.toNat (T.WIDE_EASTASIAN r) : Int) := Int.ofNat_nonneg _
            omega
          simp [h4, hpos]

/-- Proof-side projection of `Calc_Char_Width`: the returned width, 0 when
the call would raise (it cannot for well-formed tables). -/
def cw0 (T : ConstTables) (env : Option String) (c : Char) : Int :=
  match Calc_Char_Width T env c with
  | .ok w => w
  | .error _ => 0

theorem Calc_Char_Width_ok (T : ConstTables) (env : Option String) (c : Char)
    (hT : T.wf) : Calc_Char_Width T env c = .ok (cw0 T env c) := by
  obtain ⟨w, hw, _, _⟩ := Calc_Char_Width_cases T env c hT
  rw [hw]
  unfold cw0
  rw [hw]

theorem cw0_nonneg (T : ConstTables) (env : Option String) (c : Char) (hT : T.wf) :
    0 ≤ cw0 T env c := by
  obtain ⟨w, hw, h0, _⟩ := Calc_Char_Width_cases T env c hT
  unfold cw0
  rw [hw]
  exact h0

theorem cw0_le_two (T : ConstTables) (env : Option String) (c : Char) (hT : T.wf) :
    cw0 T env c ≤ 2 := by
  obtain ⟨w, hw, _, h2⟩ := Calc_Char_Width_cases T env c hT
  unfold cw0
  rw [hw]
  exact h2

/-! ## String width as a pure sum -/

theorem sumWidths_eq (T : ConstTables) (env : Option String) (hT : T.wf) :
    ∀ l : List Char, sumWidths T env l = .ok ((l.map (cw0 T env)).sum)
  | [] => by simp [sumWidths]
  | c :: rest => by
    unfold sumWidths
    rw [Calc_Char_Width_ok T env c hT, sumWidths_eq T env hT rest]
    simp

theorem pySlice_full {α : Type} (l : List α) : pySlice l 0 (l.length : Int) = l := by
  unfold pySlice pySliceIdx
  rw [if_neg (by omega : ¬(0 : Int) < 0), if_neg (by omega : ¬((l.length : Int)) < 0)]
  simp

theorem strW_eq (T : ConstTables) (env : Option String) (hT : T.wf) (s : List Char) :
    strW T env s = .ok ((s.map (cw0 T env)).sum) := by
  unfold strW Calc_String_Width
  by_cases hs : s = []
  · subst hs
    simp [PyText.isEmpty]
  · have hne : (PyText.str s).isEmpty = false := by
      simp [PyText.isEmpty, hs]
    rw [hne]
    simp only [Bool.false_eq_true, if_false, PyText.len, Option.getD]
    rw [if_neg (by omega : ¬(0 : Int) > (s.length : Int))]
    rw [pySlice_full, sumWidths_eq T env hT s]

theorem sum_append_cw (T : ConstTables) (env : Option String) (a b : List Char) :
    ((a ++ b).map (cw0 T env)).sum = (a.map (cw0 T env)).sum + (b.map (cw0 T env)).sum := by
  rw [List.map_append, List.sum_append]

/-- One cut step loses at most width 2. -/
theorem cutStep_sum_ge (T : ConstTables) (env : Option String) (hT : T.wf) (ca : String)
    (s : List Char) :
    ((cutStep ca s).map (cw0 T env)).sum ≥ (s.map (cw0 T env)).sum - 2 := by
  have hnn : ∀ c, 0 ≤ cw0 T env c := fun c => cw0_nonneg T env c hT
  have hle : ∀ c, cw0 T env c ≤ 2 := fun c => cw0_le_two T env c hT
  unfold cutStep
  split_ifs with h1 h2
  · cases s with
    | nil => simp
    | cons c t =>
      simp only [List.drop_one, List.tail_cons, List.map_cons, List.sum_cons]
      have := hle c
      omega
  · by_cases hs : s = []
    · subst hs; simp
    · have hsplit := List.dropLast_append_getLast hs
      have : (s.map (cw0 T env)).sum =
          (s.dropLast.map (cw0 T env)).sum + cw0 T env (s.getLast hs) := by
        conv_lhs => rw [← hsplit]
        rw [sum_append_cw]
        simp
      have := hle (s.getLast hs)
      omega
  · omega

/-- One cut step with a valid `cut_align` on a nonempty string shortens it. -/
theorem cutStep_length_lt (ca : String) (s : List Char) (hca : ca = "left" ∨ ca = "right")
    (hs : s ≠ []) : (cutStep ca s).length < s.length := by
  unfold cutStep
  rcases hca with h | h
  · rw [if_pos h]
    cases s with
    | nil => exact absurd rfl hs
    | cons c t => simp
  · have h1 : ca ≠ "left" := by rw [h]; decide
    rw [if_neg h1, if_pos h]
    rw [List.length_dropLast]
    have : s.length ≠ 0 := fun he => hs (List.eq_nil_of_length_eq_zero he)
    omega

/-- One pad step with a valid `pad_align` adds exactly the pad string's
width. -/
theorem padStep_sum (T : ConstTables) (env : Option String) (pa : String) (pc s : List Char)
    (hpa : pa = "left" ∨ pa = "right") :
    ((padStep pa pc s).map (cw0 T env)).sum =
      (s.map (cw0 T env)).sum + (pc.map (cw0 T env)).sum := by
  unfold padStep
  rcases hpa with h | h
  · rw [if_pos h, sum_append_cw]
    omega
  · have h1 : pa ≠ "left" := by rw [h]; decide
    rw [if_neg h1, if_pos h, sum_append_cw]

/-! ## Loop invariants of `Cut_And_Pad_String` -/

/-- If the pad loop starts at width `≤ length` with a width-1 pad string and
returns, the result has width exactly `length`. -/
theorem padLoop_width (T : ConstTables) (env : Option String) (pa : String) (pc : List Char)
    (n : Int) (hT : T.wf) (hpc : (pc.map (cw0 T env)).sum = 1) :
    ∀ (fuel : ℕ) (s r : List Char),
      (s.map (cw0 T env)).sum ≤ n →
      padLoop T env pa pc n fuel s = some (.ok r) →
      (r.map (cw0 T env)).sum = n := by
  intro fuel
  induction fuel with
  | zero =>
    intro s r _ h
    exact absurd h (by simp [padLoop])
  | succ fuel ih =>
    intro s r hle h
    simp only [padLoop, strW_eq T env hT s] at h
    by_cases hlt : (s.map (cw0 T env)).sum < n
    · rw [if_pos hlt] at h
      refine ih (padStep pa pc s) r ?_ h
      unfold padStep
      split_ifs with h1 h2
      · rw [sum_append_cw]
        omega
      · rw [sum_append_cw]
        omega
      · omega
    · rw [if_neg hlt] at h
      simp only [Option.some.injEq, Except.ok.injEq] at h
      subst h
      omega

/-- If the cut loop starts at width `≥ length - 1` and returns, the result
width lies in `[length - 1, length]`. -/
theorem cutLoop_width (T : ConstTables) (env : Option String) (ca : String) (n : Int)
    (hT : T.wf) :
    ∀ (fuel : ℕ) (s r : List Char),
      n - 1 ≤ (s.map (cw0 T env)).sum →
      cutLoop T env ca n fuel s = some (.ok r) →
      n - 1 ≤ (r.map (cw0 T env)).sum ∧ (r.map (cw0 T env)).sum ≤ n := by
  intro fuel
  induction fuel with
  | zero =>
    intro s r _ h
    exact absurd h (by simp [cutLoop])
  | succ fuel ih =>
    intro s r hge h
    simp only [cutLoop, strW_eq T env hT s] at h
    by_cases hgt : (s.map (cw0 T env)).sum > n
    · rw [if_pos hgt] at h
      refine ih (cutStep ca s) r ?_ h
      have := cutStep_sum_ge T env hT ca s
      omega
    · rw [if_neg hgt] at h
      simp only [Option.some.injEq, Except.ok.injEq] at h
      subst h
      omega

/-- The cut loop terminates for a valid `cut_align` and a nonnegative
target. -/
theorem cutLoop_term (T : ConstTables) (env : Option String) (ca : String) (n : Int)
    (hT : T.wf) (hca : ca = "left" ∨ ca = "right") (hn : 0 ≤ n) :
    ∀ (L : ℕ) (s : List Char), s.length ≤ L →
      ∃ fuel r, cutLoop T env ca n fuel s = some (.ok r) := by
  intro L
  induction L with
  | zero =>
    intro s hs
    have hnil : s = [] := List.eq_nil_of_length_eq_zero (Nat.le_zero.mp hs)
    subst hnil
    have hw : ¬((List.map (cw0 T env) ([] : List Char)).sum > n) := by
      simp
      omega
    refine ⟨1, [], ?_⟩
    simp only [cutLoop, strW_eq T env hT []]
    rw [if_neg hw]
  | succ L ih =>
    intro s hs
    by_cases hw : (s.map (cw0 T env)).sum > n
    · have hsne : s ≠ [] := by
        intro he
        subst he
        simp at hw
        omega
      have hlen : (cutStep ca s).length < s.length := cutStep_length_lt ca s hca hsne
      obtain ⟨fuel, r, hr⟩ := ih (cutStep ca s) (by omega)
      refine ⟨fuel + 1, r, ?_⟩
      simp only [cutLoop, strW_eq T env hT s]
      rw [if_pos hw]
      exact hr
    · refine ⟨1, s, ?_⟩
      simp only [cutLoop, strW_eq T env hT s]
      rw [if_neg hw]

/-- The pad loop terminates for a valid `pad_align` and a pad string of
positive width. -/
theorem padLoop_term (T : ConstTables) (env : Option String) (pa : String) (pc : List Char)
    (n : Int) (hT : T.wf) (hpa : pa = "left" ∨ pa = "right")
    (hpc : 1 ≤ (pc.map (cw0 T env)).sum) :
    ∀ (k : ℕ) (s : List Char), (n - (s.map (cw0 T env)).sum).toNat ≤ k →
      ∃ fuel r, padLoop T env pa pc n fuel s = some (.ok r) := by
  intro k
  induction k with
  | zero =>
    intro s hk
    have hge : ¬((s.map (cw0 T env)).sum < n) := by omega
    refine ⟨1, s, ?_⟩
    simp only [padLoop, strW_eq T env hT s]
    rw [if_neg hge]
  | succ k ih =>
    intro s hk
    by_cases hlt : (s.map (cw0 T env)).sum < n
    · have hstep := padStep_sum T env pa pc s hpa
      obtain ⟨fuel, r, hr⟩ := ih (padStep pa pc s) (by omega)
      refine ⟨fuel + 1, r, ?_⟩
      simp only [padLoop, strW_eq T env hT s]
      rw [if_pos hlt]
      exact hr
    · refine ⟨1, s, ?_⟩
      simp only [padLoop, strW_eq T env hT s]
      rw [if_neg hlt]

/-- A cut step that leaves the string unchanged (e.g. an alignment outside
`{'left','right'}`) makes the cut loop spin forever once the width exceeds
the target. -/
theorem cutLoop_stuck (T : ConstTables) (env : Option String) (ca : String) (n : Int)
    (s : List Char) (w : Int) (hw : strW T env s = .ok w) (hgt : w > n)
    (hstep : cutStep ca s = s) :
    ∀ fuel, cutLoop T env ca n fuel s = none := by
  intro fuel
  induction fuel with
  | zero => rfl
  | succ fuel ih =>
    simp only [cutLoop, hw]
    rw [if_pos hgt, hstep]
    exact ih

/-! ## Claim C1 -/

/-- Claim C1 (amended): over well-formed tables, with a width-1 pad string
and a target `n ≥ 0`, whenever `Cut_And_Pad_String` returns, the result's
display width is exactly `n` if the input's width was at most `n` (the pad
and no-op paths), and lies in `[n-1, n]` in general — the cut path can
undershoot by one column when it removes a double-width character. -/
theorem claim_C1_amended (T : ConstTables) (env : Option String) (fuel : ℕ)
    (s pc r : List Char) (n : Int) (ca pa : String) (hT : T.wf)
    (hpc : strW T env pc = .ok 1) (hn : 0 ≤ n)
    (hfit : Cut_And_Pad_String T env fuel s n ca pa pc = some (.ok r)) :
    ∃ ws wr, strW T env s = .ok ws ∧ strW T env r = .ok wr ∧
      n - 1 ≤ wr ∧ wr ≤ n ∧ (ws ≤ n → wr = n) := by
  have hpc' : (pc.map (cw0 T env)).sum = 1 := by
    have h2 := strW_eq T env hT pc
    rw [hpc] at h2
    injection h2 with h2
    exact h2.symm
  refine ⟨(s.map (cw0 T env)).sum, (r.map (cw0 T env)).sum,
    strW_eq T env hT s, strW_eq T env hT r, ?_⟩
  simp only [Cut_And_Pad_String, strW_eq T env hT s] at hfit
  by_cases hgt : (s.map (cw0 T env)).sum > n
  · rw [if_pos hgt] at hfit
    obtain ⟨h1, h2⟩ := cutLoop_width T env ca n hT fuel s r (by omega) hfit
    exact ⟨h1, h2, fun hws => absurd hws (by omega)⟩
  · rw [if_neg hgt] at hfit
    by_cases hlt : (s.map (cw0 T env)).sum < n
    · rw [if_pos hlt] at hfit
      have := padLoop_width T env pa pc n hT hpc' fuel s r (by omega) hfit
      exact ⟨by omega, by omega, fun _ => this⟩
    · rw [if_neg hlt] at hfit
      simp only [Option.some.injEq, Except.ok.injEq] at hfit
      subst hfit
      exact ⟨by omega, by omega, fun _ => by omega⟩

/-- Claim C1 (counterexample to the claim as stated): over the sample
tables, with target width 3, valid alignments and the width-1 pad
character `' '`, cutting `"……"` (width 4) returns `"…"` of width 2 ≠ 3:
removing one double-width character jumps past the target. -/
theorem claim_C1_counterexample :
    (0 : Int) ≤ 3 ∧ ("left" = "left" ∨ "left" = "right") ∧
      ("right" = "left" ∨ "right" = "right") ∧
      strW sampleTables none [' '] = .ok 1 ∧
      Cut_And_Pad_String sampleTables none 10 ['…', '…'] 3 "left" "right" [' '] =
        some (.ok ['…']) ∧
      strW sampleTables none ['…'] = .ok 2 ∧ (2 : Int) ≠ 3 :=
  ⟨by norm_num, Or.inl rfl, Or.inr rfl, rfl, rfl, rfl, by norm_num⟩

/-- Claim C1 witness: padding `"AB"` to width 5 with spaces gives
`"AB   "`, of width exactly 5. -/
theorem claim_C1_witness :
    ∃ ws wr, strW sampleTables none ['A', 'B'] = .ok ws ∧
      strW sampleTables none ['A', 'B', ' ', ' ', ' '] = .ok wr ∧
      (5 : Int) - 1 ≤ wr ∧ wr ≤ 5 ∧ (ws ≤ 5 → wr = 5) :=
  claim_C1_amended sampleTables none 10 ['A', 'B'] [' '] ['A', 'B', ' ', ' ', ' '] 5
    "left" "right" ⟨by decide, by decide⟩ rfl (by norm_num) rfl

/-! ## Claim C5 -/

/-- Claim C5 (amended): `Cut_And_Pad_String` terminates for every input
string and every nonnegative target width provided `cut_align` and
`pad_align` are in `{'left','right'}` and the pad string has positive
display width; outside those conditions (e.g. any other alignment string
while cutting is required) the corresponding `while` loop never exits. -/
theorem claim_C5_amended (T : ConstTables) (env : Option String) (s pc : List Char)
    (n : Int) (ca pa : String) (hT : T.wf) (hca : ca = "left" ∨ ca = "right")
    (hpa : pa = "left" ∨ pa = "right") (hpc : 1 ≤ (pc.map (cw0 T env)).sum) (hn : 0 ≤ n) :
    ∃ fuel r, Cut_And_Pad_String T env fuel s n ca pa pc = some (.ok r) := by
  by_cases hgt : (s.map (cw0 T env)).sum > n
  · obtain ⟨fuel, r, hr⟩ := cutLoop_term T env ca n hT hca hn s.length s (le_refl _)
    refine ⟨fuel, r, ?_⟩
    simp only [Cut_And_Pad_String, strW_eq T env hT s]
    rw [if_pos hgt]
    exact hr
  · by_cases hlt : (s.map (cw0 T env)).sum < n
    · obtain ⟨fuel, r, hr⟩ :=
        padLoop_term T env pa pc n hT hpa hpc (n - (s.map (cw0 T env)).sum).toNat s (le_refl _)
      refine ⟨fuel, r, ?_⟩
      simp only [Cut_And_Pad_String, strW_eq T env hT s]
      rw [if_neg hgt, if_pos hlt]
      exact hr
    · refine ⟨0, s, ?_⟩
      simp only [Cut_And_Pad_String, strW_eq T env hT s]
      rw [if_neg hgt, if_neg hlt]

/-- Claim C5 (counterexample to the claim as stated): with the alignment
string `"x"` (not `'left'`/`'right'`), cutting `"AA"` (width 2) to target
width 1 never terminates — the loop body leaves the string unchanged, so
`Calc_String_Width(string) > length` holds forever. -/
theorem claim_C5_counterexample :
    ¬ fitTerminates sampleTables none ['A', 'A'] 1 "x" "right" [' '] := by
  intro hterm
  obtain ⟨fuel, r, h⟩ := hterm
  have hred : Cut_And_Pad_String sampleTables none fuel ['A', 'A'] 1 "x" "right" [' '] =
      cutLoop sampleTables none "x" 1 fuel ['A', 'A'] := rfl
  rw [hred] at h
  rw [cutLoop_stuck sampleTables none "x" 1 ['A', 'A'] 2 rfl (by norm_num) rfl fuel] at h
  exact Option.noConfusion h

/-- Claim C5 witness: cutting `"永永永"` (width 6) to target width 2 with
valid alignments terminates. -/
theorem claim_C5_witness :
    ∃ fuel r,
      Cut_And_Pad_String sampleTables none fuel ['永', '永', '永'] 2 "left" "right" [' '] =
        some (.ok r) :=
  claim_C5_amended sampleTables none ['永', '永', '永'] [' '] 2 "left" "right"
    ⟨by decide, by decide⟩ (Or.inl rfl) (Or.inr rfl) (by decide) (by norm_num)

/-! ## Claim C3 -/

/-- Claim C3 (amended): for every NONEMPTY text (native string or byte
buffer) and every pair of offsets with `start_offs > end_offs`,
`Calc_String_Width` raises `ValueError`.  (For empty input the
`if not text: return 0` short-circuit fires before the range check, so the
claim as stated — "including empty" — fails.) -/
theorem claim_C3_amended (T : ConstTables) (env : Option String) (text : PyText)
    (start_offs endv : Int) (hne : text.isEmpty = false) (hgt : start_offs > endv) :
    Calc_String_Width T env text start_offs (some endv) = .error "ValueError" := by
  unfold Calc_String_Width
  rw [hne]
  simp only [Bool.false_eq_true, if_false, Option.getD_some]
  rw [if_pos hgt]

/-- Claim C3 (counterexample to the claim as stated): on empty input (both
the empty string and the empty byte buffer) with `start_offs = 2 >
end_offs = 1`, `Calc_String_Width` returns 0 instead of raising. -/
theorem claim_C3_counterexample :
    Calc_String_Width sampleTables none (.str []) 2 (some 1) = .ok 0 ∧
      Calc_String_Width sampleTables none (.bytes []) 2 (some 1) = .ok 0 ∧
      Calc_String_Width sampleTables none (.str []) 2 (some 1) ≠ .error "ValueError" ∧
      (2 : Int) > 1 := by
  refine ⟨rfl, rfl, ?_, by norm_num⟩
  intro h
  rw [(rfl : Calc_String_Width sampleTables none (.str []) 2 (some 1) = Except.ok 0)] at h
  exact Except.noConfusion h

/-- Claim C3 witness: on the nonempty string `"A"` with offsets `2 > 1`,
`Calc_String_Width` raises `ValueError`. -/
theorem claim_C3_witness :
    Calc_String_Width sampleTables none (.str ['A']) 2 (some 1) = .error "ValueError" :=
  claim_C3_amended sampleTables none (.str ['A']) 2 1 rfl (by norm_num)

/-! ## Claim C4 -/

/-- Claim C4 (amended): because the local `_byte_encoding` is hardcoded to
`"narrow"`, a nonempty byte buffer is measured by code-unit count —
`Calc_String_Width` returns `end_offs - start_offs` and the UTF-8 decoding
path is never taken. -/
theorem claim_C4_amended (T : ConstTables) (env : Option String) (bs : List ℕ)
    (start_offs endv : Int) (hne : bs ≠ []) (hle : start_offs ≤ endv) :
    Calc_String_Width T env (.bytes bs) start_offs (some endv) = .ok (endv - start_offs) := by
  unfold Calc_String_Width
  have h1 : (PyText.bytes bs).isEmpty = false := by simp [PyText.isEmpty, hne]
  rw [h1]
  simp only [Bool.false_eq_true, if_false, Option.getD_some]
  rw [if_neg (by omega : ¬ start_offs > endv)]
  simp [byteEncoding]

/-- Claim C4 (counterexample to the claim as stated): the byte buffer
`b'\xe6\xb0\xb8'` (the well-formed UTF-8 encoding of `'永'`) has decoded
width 2, but `Calc_String_Width` returns the byte count 3 — byte input is
not decoded as UTF-8. -/
theorem claim_C4_counterexample :
    Calc_String_Width sampleTables none (.bytes [0xE6, 0xB0, 0xB8]) 0 none = .ok 3 ∧
      utf8DecodeStrict [0xE6, 0xB0, 0xB8] = some [0x6C38] ∧
      sumWidths sampleTables none ([0x6C38].map Char.ofNat) = .ok 2 ∧ (3 : Int) ≠ 2 :=
  ⟨rfl, rfl, rfl, by norm_num⟩

/-- Claim C4 witness: the one-byte buffer `b'A'` over offsets `[0, 1)` is
measured as `1 - 0` code units. -/
theorem claim_C4_witness :
    Calc_String_Width sampleTables none (.bytes [0x41]) 0 (some 1) = .ok (1 - 0) :=
  claim_C4_amended sampleTables none [0x41] 0 1 (by decide) (by norm_num)

/-! ## Claims C6 and C10 -/

/-- The failure conditions of `_decode_one`, read off the source's error
returns: a non-ASCII lead byte with insufficient remaining bytes for its
announced class, a continuation byte not matching `10xxxxxx`, an overlong
encoding, or a lead byte matching no valid pattern. -/
def decodeFailCore (b1 b2 b3 b4 lt : ℕ) : Prop :=
  b1 &&& 0x80 ≠ 0 ∧
    (lt < 2 ∨
      (b1 &&& 0xE0 = 0xC0 ∧
        (b2 &&& 0xC0 ≠ 0x80 ∨ ((b1 &&& 0x1F) <<< 6 ||| (b2 &&& 0x3F)) < 0x80)) ∨
      (b1 &&& 0xE0 ≠ 0xC0 ∧
        (lt < 3 ∨
          (b1 &&& 0xF0 = 0xE0 ∧
            (b2 &&& 0xC0 ≠ 0x80 ∨ b3 &&& 0xC0 ≠ 0x80 ∨
              ((b1 &&& 0x0F) <<< 12 ||| (b2 &&& 0x3F) <<< 6 ||| (b3 &&& 0x3F)) < 0x800)) ∨
          (b1 &&& 0xF0 ≠ 0xE0 ∧
            (lt < 4 ∨
              (b1 &&& 0xF8 = 0xF0 ∧
                (b2 &&& 0xC0 ≠ 0x80 ∨ b3 &&& 0xC0 ≠ 0x80 ∨ b4 &&& 0xC0 ≠ 0x80 ∨
                  ((b1 &&& 0x07) <<< 18 ||| (b2 &&& 0x3F) <<< 12 ||| (b3 &&& 0x3F) <<< 6 |||
                    (b4 &&& 0x3F)) < 0x10000)) ∨
              b1 &&& 0xF8 ≠ 0xF0)))))

theorem decodeCore_fail (b1 b2 b3 b4 lt pos : ℕ) (hfail : decodeFailCore b1 b2 b3 b4 lt) :
    decodeCore b1 b2 b3 b4 lt pos = (63, pos + 1) := by
  obtain ⟨h1, h⟩ := hfail
  unfold decodeCore
  rw [if_neg h1]
  by_cases hl2 : lt < 2
  · rw [if_pos hl2]
  · rw [if_neg hl2]
    by_cases hc2 : b1 &&& 0xE0 = 0xC0
    · rw [if_pos hc2]
      rcases h with h | ⟨_, h⟩ | ⟨hne, _⟩
      · exact absurd h hl2
      · rcases h with hb | ho2
        · rw [if_pos hb]
        · by_cases hb2 : b2 &&& 0xC0 ≠ 0x80
          · rw [if_pos hb2]
          · rw [if_neg hb2, if_pos ho2]
      · exact absurd hc2 hne
    · rw [if_neg hc2]
      have h3 : lt < 3 ∨
          (b1 &&& 0xF0 = 0xE0 ∧
            (b2 &&& 0xC0 ≠ 0x80 ∨ b3 &&& 0xC0 ≠ 0x80 ∨
              ((b1 &&& 0x0F) <<< 12 ||| (b2 &&& 0x3F) <<< 6 ||| (b3 &&& 0x3F)) < 0x800)) ∨
          (b1 &&& 0xF0 ≠ 0xE0 ∧
            (lt < 4 ∨
              (b1 &&& 0xF8 = 0xF0 ∧
                (b2 &&& 0xC0 ≠ 0x80 ∨ b3 &&& 0xC0 ≠ 0x80 ∨ b4 &&& 0xC0 ≠ 0x80 ∨
                  ((b1 &&& 0x07) <<< 18 ||| (b2 &&& 0x3F) <<< 12 ||| (b3 &&& 0x3F) <<< 6 |||
                    (b4 &&& 0x3F)) < 0x10000)) ∨
              b1 &&& 0xF8 ≠ 0xF0)) := by
        rcases h with h | ⟨hc, _⟩ | ⟨_, h⟩
        · exact absurd h hl2
        · exact absurd hc hc2
        · exact h
      by_cases hl3 : lt < 3
      · rw [if_pos hl3]
      · rw [if_neg hl3]
        by_cases hc3 : b1 &&& 0xF0 = 0xE0
        · rw [if_pos hc3]
          rcases h3 with h | ⟨_, h⟩ | ⟨hne, _⟩
          · exact absurd h hl3
          · rcases h with hb | hb | ho3
            · rw [if_pos hb]
            · by_cases hb2 : b2 &&& 0xC0 ≠ 0x80
              · rw [if_pos hb2]
              · rw [if_neg hb2, if_pos hb]
            · by_cases hb2 : b2 &&& 0xC0 ≠ 0x80
              · rw [if_pos hb2]
              · rw [if_neg hb2]
                by_cases hb3 : b3 &&& 0xC0 ≠ 0x80
                · rw [if_pos hb3]
                · rw [if_neg hb3, if_pos ho3]
          · exact absurd hc3 hne
        · rw [if_neg hc3]
          have h4 : lt < 4 ∨
              (b1 &&& 0xF8 = 0xF0 ∧
                (b2 &&& 0xC0 ≠ 0x80 ∨ b3 &&& 0xC0 ≠ 0x80 ∨ b4 &&& 0xC0 ≠ 0x80 ∨
                  ((b1 &&& 0x07) <<< 18 ||| (b2 &&& 0x3F) <<< 12 ||| (b3 &&& 0x3F) <<< 6 |||
                    (b4 &&& 0x3F)) < 0x10000)) ∨
              b1 &&& 0xF8 ≠ 0xF0 := by
            rcases h3 with h | ⟨hc, _⟩ | ⟨_, h⟩
            · exact absurd h hl3
            · exact absurd hc hc3
            · exact h
          by_cases hl4 : lt < 4
          · rw [if_pos hl4]
          · rw [if_neg hl4]
            by_cases hc4 : b1 &&& 0xF8 = 0xF0
            · rw [if_pos hc4]
              rcases h4 with h | ⟨_, h⟩ | hne
              · exact absurd h hl4
              · rcases h with hb | hb | hb | ho4
                · rw [if_pos hb]
                · by_cases hb2 : b2 &&& 0xC0 ≠ 0x80
                  · rw [if_pos hb2]
                  · rw [if_neg hb2, if_pos hb]
                · by_cases hb2 : b2 &&& 0xC0 ≠ 0x80
                  · rw [if_pos hb2]
                  · rw [if_neg hb2]
                    by_cases hb3 : b3 &&& 0xC0 ≠ 0x80
                    · rw [if_pos hb3]
                    · rw [if_neg hb3, if_pos hb]
                · by_cases hb2 : b2 &&& 0xC0 ≠ 0x80
                  · rw [if_pos hb2]
                  · rw [if_neg hb2]
                    by_cases hb3 : b3 &&& 0xC0 ≠ 0x80
                    · rw [if_pos hb3]
                    · rw [if_neg hb3]
                      by_cases hb4 : b4 &&& 0xC0 ≠ 0x80
                      · rw [if_pos hb4]
                      · rw [if_neg hb4, if_pos ho4]
              · exact absurd hc4 hne
            · rw [if_neg hc4]

/-- Claim C6: at every valid position, whenever `_decode_one` hits a
failure — insufficient remaining bytes for the announced sequence length, a
malformed continuation byte, an overlong encoding, or an invalid lead
byte — it returns the ordinal of `'?'` (63) and `pos + 1`, advancing by
exactly one byte. -/
theorem claim_C6 (text : List ℕ) (pos : ℕ) (hpos : pos < text.length)
    (hfail : decodeFailCore (text.getD pos 0) (text.getD (pos + 1) 0) (text.getD (pos + 2) 0)
      (text.getD (pos + 3) 0) (text.length - pos)) :
    _decode_one text pos = .ok (63, pos + 1) := by
  unfold _decode_one
  rw [if_pos hpos, decodeCore_fail _ _ _ _ _ _ hfail]

/-- Claim C6 witness: the overlong two-byte sequence `0xC0 0x80` at
position 0 decodes to `(ord('?'), 1)`, advancing by exactly one byte. -/
theorem claim_C6_witness : _decode_one [0xC0, 0x80] 0 = .ok (63, 1) :=
  claim_C6 [0xC0, 0x80] 0 (by decide) (by unfold decodeFailCore; decide)

/-- Claim C10: `_decode_one` accepts 4-byte sequences whose lead byte lies
in `[0xF5, 0xF7]` (beyond the Unicode maximum) when followed by three valid
continuation bytes assembling to at least `0x10000`: it returns the
out-of-range ordinal and `pos + 4`, performing no upper-bound or
surrogate-range check. -/
theorem claim_C10 (text : List ℕ) (pos : ℕ) (hpos : pos + 3 < text.length)
    (hb1 : 0xF5 ≤ text.getD pos 0) (hb1h : text.getD pos 0 ≤ 0xF7)
    (hc2 : text.getD (pos + 1) 0 &&& 0xC0 = 0x80)
    (hc3 : text.getD (pos + 2) 0 &&& 0xC0 = 0x80)
    (hc4 : text.getD (pos + 3) 0 &&& 0xC0 = 0x80)
    (ho : 0x10000 ≤
      (text.getD pos 0 &&& 0x07) <<< 18 ||| (text.getD (pos + 1) 0 &&& 0x3F) <<< 12 |||
        (text.getD (pos + 2) 0 &&& 0x3F) <<< 6 ||| (text.getD (pos + 3) 0 &&& 0x3F)) :
    _decode_one text pos =
      .ok ((text.getD pos 0 &&& 0x07) <<< 18 ||| (text.getD (pos + 1) 0 &&& 0x3F) <<< 12 |||
        (text.getD (pos + 2) 0 &&& 0x3F) <<< 6 ||| (text.getD (pos + 3) 0 &&& 0x3F), pos + 4) := by
  have hlt : 4 ≤ text.length - pos := by omega
  have hA : text.getD pos 0 &&& 0x80 ≠ 0 := by interval_cases (text.getD pos 0) <;> decide
  have hB : text.getD pos 0 &&& 0xE0 ≠ 0xC0 := by interval_cases (text.getD pos 0) <;> decide
  have hC : text.getD pos 0 &&& 0xF0 ≠ 0xE0 := by interval_cases (text.getD pos 0) <;> decide
  have hD : text.getD pos 0 &&& 0xF8 = 0xF0 := by interval_cases (text.getD pos 0) <;> decide
  unfold _decode_one decodeCore
  rw [if_pos (by omega : pos < text.length), if_neg hA,
    if_neg (by omega : ¬ text.length - pos < 2), if_neg hB,
    if_neg (by omega : ¬ text.length - pos < 3), if_neg hC,
    if_neg (by omega : ¬ text.length - pos < 4), if_pos hD,
    if_neg (not_not_intro hc2), if_neg (not_not_intro hc3), if_neg (not_not_intro hc4),
    if_neg (by omega : ¬ (text.getD pos 0 &&& 0x07) <<< 18 |||
      (text.getD (pos + 1) 0 &&& 0x3F) <<< 12 ||| (text.getD (pos + 2) 0 &&& 0x3F) <<< 6 |||
      (text.getD (pos + 3) 0 &&& 0x3F) < 0x10000)]

/-- Claim C10 witness: `0xF7 0xBF 0xBF 0xBF` decodes to the out-of-range
ordinal `0x1FFFFF` with next position 4. -/
theorem claim_C10_witness : _decode_one [0xF7, 0xBF, 0xBF, 0xBF] 0 = .ok (0x1FFFFF, 4) := by
  rw [claim_C10 [0xF7, 0xBF, 0xBF, 0xBF] 0 (by decide) (by decide) (by decide) (by decide)
    (by decide) (by decide) (by decide)]
  rfl

/-! ## Claim C7 -/

/-- Claim C7: version resolution is total — for every requested string and
every value of the `UNICODE_VERSION` environment override, over a nonempty
version list whose entries all parse as dotted integers,
`_wcmatch_version` returns a member of the list and never raises (in
particular the trailing `assert False` is unreachable). -/
theorem claim_C7 (versions : List String) (env : Option String) (given : String)
    (hne : versions ≠ []) (hp : ∀ v ∈ versions, (_wcversion_value v).isSome) :
    ∃ r ∈ versions, _wcmatch_version versions env given = .ok r :=
  wcmatch_total versions env given hne hp

/-- Claim C7 witness: with a garbage environment override and
`given = "auto"`, resolution still returns a member of the list. -/
theorem claim_C7_witness :
    ∃ r ∈ ["5.0", "6.0"], _wcmatch_version ["5.0", "6.0"] (some "garbage") "auto" = .ok r :=
  claim_C7 ["5.0", "6.0"] (some "garbage") "auto" (by decide) (by decide)

/-! ## Claim C8 -/

/-- Claim C8: every codepoint in the thirteen-character override set has
width exactly 2 under every table instance and environment (hence under
every supported Unicode version), because the override check precedes the
control-character and table logic. -/
theorem claim_C8 (T : ConstTables) (env : Option String) (c : Char) (hc : c ∈ overrideChars) :
    Calc_Char_Width T env c = .ok 2 := by
  unfold Calc_Char_Width
  rw [if_pos hc]

/-- Claim C8 witness: the ellipsis `'…'` has width 2. -/
theorem claim_C8_witness : Calc_Char_Width sampleTables none '…' = .ok 2 :=
  claim_C8 sampleTables none '…' (by decide)

/-! ## Claim C9 -/

/-- Claim C9: for every codepoint in `[0,32) ∪ [0x7F,0xA0)` not in the
override set, `Calc_Char_Width` returns 0 — the internal −1 produced by
`_wcwidth` for control codepoints is clamped to 0 at the public boundary
(or, if the codepoint is in ZERO_WIDTH_CF, `_wcwidth` returns 0 directly);
a negative width is never returned. -/
theorem claim_C9 (T : ConstTables) (env : Option String) (c : Char)
    (hctrl : c.toNat < 32 ∨ (0x7F ≤ c.toNat ∧ c.toNat < 0xA0))
    (hov : c ∉ overrideChars) :
    Calc_Char_Width T env c = .ok 0 := by
  unfold Calc_Char_Width
  rw [if_neg hov]
  unfold _wcwidth
  by_cases hcf : c.toNat ∈ T.ZERO_WIDTH_CF
  · rw [if_pos hcf]
    simp
  · rw [if_neg hcf, if_pos hctrl]
    simp

/-- Claim C9 witness: the control character U+001F has width 0. -/
theorem claim_C9_witness : Calc_Char_Width sampleTables none (Char.ofNat 31) = .ok 0 :=
  claim_C9 sampleTables none (Char.ofNat 31) (by decide) (by decide)

/-! ## Claim C2 -/

/-- Formalisation of claim C2's words (spec §4.2 rule 6): scan VersionList
in ascending order and return the first entry whose parsed tuple is not
less than the requested tuple (a strict-prefix match is such an entry);
`none` when no entry qualifies (the claim then prescribes "latest"). -/
def resolveClaimC2 (versions : List String) (g : List Int) : Option String :=
  versions.find? (fun v =>
    match _wcversion_value v with
    | some t => decide (lexCmp t g ≠ .lt)
    | none => false)

/-- Formalisation of the amended claim C2: walking the list pairwise, stop
at the first later entry whose parsed tuple is *not less* than the
requested tuple; return that entry when the requested tuple is a prefix of
its tuple, and otherwise the entry immediately preceding it (the nearest
lower tabulated version); if every later entry's tuple is less, the latest
version. -/
def wcScanSpec (cmp_given : List Int) (latest_version : String) : List String → String
  | [] => latest_version
  | [_] => latest_version
  | v :: v2 :: rest =>
    match _wcversion_value v2 with
    | none => latest_version
    | some cmp_next =>
      if lexCmp cmp_next cmp_given ≠ .lt then
        (if cmp_given = cmp_next.take cmp_given.length then v2 else v)
      else wcScanSpec cmp_given latest_version (v2 :: rest)

/-- The source's scan agrees with the amended description. -/
theorem wcScan_eq_spec (g : List Int) (latest : String) :
    ∀ (v : String) (l : List String),
      (∀ x ∈ l, (_wcversion_value x).isSome) →
      wcScan g latest (v :: l) = .ok (wcScanSpec g latest (v :: l))
  | _, [] => fun _ => rfl
  | v, v2 :: rest => by
    intro hp
    obtain ⟨t, ht⟩ := Option.isSome_iff_exists.mp (hp v2 (by simp))
    simp only [wcScan, wcScanSpec, ht]
    by_cases h1 : g = t.take g.length
    · have hnl : lexCmp t g ≠ .lt := lexCmp_take_not_lt h1
      rw [if_pos h1, if_pos hnl, if_pos h1]
    · rw [if_neg h1]
      by_cases h2 : lexCmp t g = .gt
      · have hnl : lexCmp t g ≠ .lt := by rw [h2]; decide
        rw [if_pos h2, if_pos hnl, if_neg h1]
      · rw [if_neg h2]
        have hlt : lexCmp t g = .lt := by
          cases ho : lexCmp t g with
          | lt => rfl
          | eq =>
            exfalso
            apply h1
            rw [lexCmp_eq_iff.mp ho, List.take_length]
          | gt => exact absurd ho h2
        rw [if_neg (not_not_intro hlt)]
        exact wcScan_eq_spec g latest v2 rest (fun x hx => hp x (List.mem_cons_of_mem v2 hx))

/-- Claim C2 (counterexample to the claim as stated): over the tables
`["5.0", "6.0"]`, the requested version `"5.5"` parses, is not a member,
and exceeds the earliest entry; the claim picks the first entry whose tuple
is not less than `(5,5)` — `"6.0"` — but the code returns `"5.0"`, the
nearest lower version. -/
theorem claim_C2_counterexample :
    _wcversion_value "5.5" = some [5, 5] ∧
      "5.5" ∉ (["5.0", "6.0"] : List String) ∧
      lexCmp [5, 5] [5, 0] = .gt ∧
      resolveClaimC2 ["5.0", "6.0"] [5, 5] = some "6.0" ∧
      _wcmatch_version ["5.0", "6.0"] none "5.5" = .ok "5.0" ∧
      "5.0" ≠ "6.0" :=
  ⟨by decide, by decide, by decide, by decide, rfl, by decide⟩

/-- Claim C2 (amended): for a requested version that parses, is not an
exact member, and whose tuple strictly exceeds the earliest entry's tuple,
`_wcmatch_version` returns `wcScanSpec`: at the first later entry whose
tuple is not less than the request, that entry on a prefix match and
otherwise its predecessor (the nearest lower version); the latest version
when no later entry qualifies. -/
theorem claim_C2_amended (env : Option String) (given : String)
    (g e0 : List Int) (v0 : String) (rest : List String)
    (hp : ∀ v ∈ v0 :: rest, (_wcversion_value v).isSome)
    (hg : _wcversion_value given = some g)
    (hmem : given ∉ v0 :: rest)
    (he0 : _wcversion_value v0 = some e0)
    (hgt : lexCmp g e0 = .gt) :
    ∃ latest, (v0 :: rest).getLast? = some latest ∧
      _wcmatch_version (v0 :: rest) env given = .ok (wcScanSpec g latest (v0 :: rest)) := by
  obtain ⟨latest, hlast⟩ := Option.isSome_iff_exists.mp
    (List.getLast?_isSome.mpr (by simp : (v0 :: rest) ≠ []))
  refine ⟨latest, hlast, ?_⟩
  have hga : given ≠ "auto" := by
    intro he
    have h0 : _wcversion_value "auto" = none := rfl
    rw [he, h0] at hg
    exact Option.noConfusion hg
  have hgl : given ≠ "latest" := by
    intro he
    have h0 : _wcversion_value "latest" = none := rfl
    rw [he, h0] at hg
    exact Option.noConfusion hg
  have hwc : wcGiven env given = given := by
    unfold wcGiven
    rw [if_neg hga]
  simp only [_wcmatch_version, hlast, hwc]
  rw [if_neg hgl, if_neg hmem]
  simp only [hg, List.head?_cons, he0]
  rw [if_neg (not_not_intro hgt)]
  exact wcScan_eq_spec g latest v0 rest (fun x hx => hp x (List.mem_cons_of_mem v0 hx))

/-- Claim C2 witness: over `["5.0", "6.0", "7.0"]` the request `"6.5"`
resolves to the nearest lower version `"6.0"` (the amended rule). -/
theorem claim_C2_witness :
    ∃ latest, (["5.0", "6.0", "7.0"] : List String).getLast? = some latest ∧
      _wcmatch_version ["5.0", "6.0", "7.0"] none "6.5" =
        .ok (wcScanSpec [6, 5] latest ["5.0", "6.0", "7.0"]) :=
  claim_C2_amended none "6.5" [6, 5] [5, 0] "5.0" ["6.0", "7.0"]
    (by decide) (by decide) (by decide) (by decide) (by decide)
